import Mathlib

/-!
Verification of the abseil-py flag subsystem and logging façade.

The development shallowly embeds the flag argument parsers/serializers,
the `Flag` object, the `FlagValues` registry together with the validator
engine and the `flagsaver` transaction helper, and the control flow of
`PythonHandler.emit` from `absl/logging/__init__.py`.  Strings are
modelled as lists of characters; machine integers do not occur (Python
integers are unbounded, so `Nat`/`Int` are exact).
-/

namespace AbslSpec

/-- Strings are modelled as lists of characters. -/
abbrev Str := List Char

/-- ASCII lower-casing of one character (used by case-insensitive enum
matching, `str.lower()` in Python). -/
def lowerChar (c : Char) : Char :=
  if 65 ≤ c.toNat ∧ c.toNat ≤ 90 then Char.ofNat (c.toNat + 32) else c

/-- `str.lower()` on the character-list model. -/
def strLower (s : Str) : Str := s.map lowerChar

/-- Character of a decimal digit value (48 is the code of the zero
digit; callers only use values below ten). -/
def toDigitChar (d : Nat) : Char := Char.ofNat (48 + d)

/-- Numeric value of a decimal digit character, `none` on anything
else; the codes of the digit characters are 48 through 57. -/
def digitVal (c : Char) : Option Nat :=
  if 48 ≤ c.toNat ∧ c.toNat ≤ 57 then some (c.toNat - 48) else none

/-- Decimal digit string of a natural number, most significant first. -/
def natDigits (n : Nat) : List Char :=
  if n < 10 then [toDigitChar n]
  else natDigits (n / 10) ++ [toDigitChar (n % 10)]
termination_by n
decreasing_by omega

/-- Left-to-right accumulator pass over decimal digits. -/
def parseDigitsAux : List Char → Nat → Option Nat
  | [], acc => some acc
  | c :: cs, acc =>
    match digitVal c with
    | some d => parseDigitsAux cs (acc * 10 + d)
    | none => none

/-- Parses a non-empty all-digit string to a natural number. -/
def parseDigits (s : Str) : Option Nat :=
  match s with
  | [] => none
  | c :: cs => parseDigitsAux (c :: cs) 0

/-- Serialized form of a Python integer (`repr` of an `int`). -/
def intChars (i : Int) : Str :=
  if i < 0 then '-' :: natDigits i.natAbs else natDigits i.toNat

/-- Modelled from the spec: `IntegerParser.parse` on a string (absent
`absl/flags/_argument_parser.py`): an optional minus sign followed by
decimal digits; anything else (e.g. `"1e2"`) is rejected. -/
def parseIntChars (s : Str) : Option Int :=
  match s with
  | [] => none
  | c :: cs =>
    if c = '-' then (parseDigits cs).map (fun n => -(n : Int))
    else (parseDigits (c :: cs)).map (fun n => (n : Int))

/-- Modelled from the spec: a Python float in its decimal literal form
(sign, integer part, fractional digits); the binary representation is
immaterial to the parse/serialize contract. -/
structure DecFloat where
  neg : Bool
  ip : Nat
  frac : List Nat
  deriving DecidableEq

/-- `repr` of a float: sign, integer part, dot, fractional digits. -/
def serializeFloat (f : DecFloat) : Str :=
  (if f.neg then ['-'] else []) ++ natDigits f.ip ++ '.' :: f.frac.map toDigitChar

/-- Strips one leading minus sign. -/
def splitSign (s : Str) : Bool × Str :=
  match s with
  | [] => (false, [])
  | c :: rest => if c = '-' then (true, rest) else (false, c :: rest)

/-- Parses a non-empty run of digit characters into their values. -/
def parseFracDigits : List Char → Option (List Nat)
  | [] => some []
  | c :: cs =>
    match digitVal c, parseFracDigits cs with
    | some d, some ds => some (d :: ds)
    | _, _ => none

/-- Body of the float grammar after the sign: digits, dot, digits. -/
def parseFloatAfterSign (neg : Bool) (body : Str) : Option DecFloat :=
  match body.splitOn '.' with
  | [ipart, fpart] =>
    (parseDigits ipart).bind fun ip =>
      if fpart = [] then none
      else (parseFracDigits fpart).map fun ds => ⟨neg, ip, ds⟩
  | _ => none

/-- Modelled from the spec: `FloatParser.parse` on a string (absent
`absl/flags/_argument_parser.py`), restricted to decimal literals of the
shape emitted by float `repr`. -/
def parseFloat (s : Str) : Option DecFloat :=
  parseFloatAfterSign (splitSign s).1 (splitSign s).2

/-- Modelled from the spec: the boolean spellings accepted by
`BooleanParser` (`true/false/1/0/yes/no`, case-insensitive). -/
def trueWords : List Str := [['t', 'r', 'u', 'e'], ['1'], ['y', 'e', 's']]

/-- Spellings of a false boolean flag value. -/
def falseWords : List Str := [['f', 'a', 'l', 's', 'e'], ['0'], ['n', 'o']]

/-- Modelled from the spec: `BooleanParser.parse` on a string (absent
`absl/flags/_argument_parser.py`). -/
def parseBool (s : Str) : Option Bool :=
  if strLower s ∈ trueWords then some true
  else if strLower s ∈ falseWords then some false
  else none

/-- `serialize` of a boolean flag value. -/
def serializeBool (b : Bool) : Str :=
  if b then ['t', 'r', 'u', 'e'] else ['f', 'a', 'l', 's', 'e']

/-- Modelled from the spec: `EnumClassParser.parse` member lookup, by
exact name when case-sensitive and by lower-cased name otherwise (absent
`absl/flags/_argument_parser.py`). -/
def parseEnumMember (members : List Str) (caseSensitive : Bool) (s : Str) : Option Str :=
  if caseSensitive then
    if s ∈ members then some s else none
  else
    members.find? (fun m => strLower m == strLower s)

/-- `EnumClassSerializer`: the member name, lower-cased when requested. -/
def serializeEnumMember (lowercase : Bool) (m : Str) : Str :=
  if lowercase then strLower m else m

/-- A typed flag value: one constructor per flag value shape. -/
inductive PVal where
  | pb (b : Bool)
  | pint (n : Int)
  | pfl (f : DecFloat)
  | pstr (s : Str)
  | plist (xs : List Str)
  deriving DecidableEq

/-- Modelled from the spec: the parser/serializer pair configurations of
`absl/flags/_argument_parser.py` (absent from the sources): boolean,
integer, float, enum, enum-class, comma/separator-delimited list, and
enum-class list.  Following `EnumClassParserTest.test_serialize_parse`,
an enum-class parser with `case_sensitive = cs` is paired with a
serializer with `lowercase = !cs`. -/
inductive ParserCfg where
  | boolean
  | integer
  | floating
  | enum (values : List Str)
  | enumClass (members : List Str) (caseSensitive : Bool)
  | csvList (sep : Char)
  | enumClassList (members : List Str) (caseSensitive : Bool) (sep : Char)
  deriving DecidableEq

/-- Applies a fallible element conversion to every list element. -/
def mapOption (f : Str → Option Str) : List Str → Option (List Str)
  | [] => some []
  | x :: xs =>
    match f x, mapOption f xs with
    | some y, some ys => some (y :: ys)
    | _, _ => none

/-- `parser.parse` for each configuration.  An empty input to a list
parser yields the empty list, not a one-element list of the empty
string. -/
def pparse : ParserCfg → Str → Option PVal
  | .boolean, s => (parseBool s).map .pb
  | .integer, s => (parseIntChars s).map .pint
  | .floating, s => (parseFloat s).map .pfl
  | .enum values, s => if s ∈ values then some (.pstr s) else none
  | .enumClass members cs, s => (parseEnumMember members cs s).map .pstr
  | .csvList sep, s => some (.plist (if s = [] then [] else s.splitOn sep))
  | .enumClassList members cs sep, s =>
    if s = [] then some (.plist [])
    else (mapOption (parseEnumMember members cs) (s.splitOn sep)).map .plist

/-- `serializer.serialize` for each configuration (empty string on a
value of the wrong shape, which legality below excludes). -/
def pserialize : ParserCfg → PVal → Str
  | .boolean, .pb b => serializeBool b
  | .integer, .pint n => intChars n
  | .floating, .pfl f => serializeFloat f
  | .enum _, .pstr s => s
  | .enumClass _ cs, .pstr s => serializeEnumMember (!cs) s
  | .csvList sep, .plist xs => [sep].intercalate xs
  | .enumClassList _ cs sep, .plist xs =>
    [sep].intercalate (xs.map (serializeEnumMember (!cs)))
  | _, _ => []

/-- The legal typed values of a configuration: right shape, members of
the declared value set, and for textual lists no embedded separator. -/
def plegal : ParserCfg → PVal → Bool
  | .boolean, .pb _ => true
  | .integer, .pint _ => true
  | .floating, .pfl f => decide (f.frac ≠ [] ∧ ∀ d ∈ f.frac, d < 10)
  | .enum values, .pstr s => decide (s ∈ values)
  | .enumClass members _, .pstr s => decide (s ∈ members)
  | .csvList sep, .plist xs => decide ((∀ x ∈ xs, sep ∉ x) ∧ xs ≠ [[]])
  | .enumClassList members _ _, .plist xs => decide (∀ x ∈ xs, x ∈ members)
  | _, _ => false

/-- Construction-time well-formedness of a configuration. -/
def cfgWF : ParserCfg → Bool
  | .boolean => true
  | .integer => true
  | .floating => true
  | .enum values => decide (values ≠ [])
  | .enumClass members cs => decide (members ≠ [] ∧ (cs = true ∨ (members.map strLower).Nodup))
  | .enumClassList members cs sep =>
    decide (members ≠ [] ∧ (cs = true ∨ (members.map strLower).Nodup) ∧
      ∀ m ∈ members, m ≠ [] ∧ sep ∉ m ∧ sep ∉ strLower m)
  | .csvList _ => true

/-- Argument handed to the `EnumClassParser` constructor: either not an
enum class at all (e.g. a plain list of strings) or an enum class with
the given member names in declaration order. -/
inductive EnumClassArg where
  | notAnEnum
  | enumOf (members : List Str)
  deriving DecidableEq

/-- A constructor-time error: Python `TypeError` or `ValueError`. -/
inductive InitError where
  | typeError (msg : String)
  | valueError (msg : String)
  deriving DecidableEq

/-- First element that occurs again later in the list. -/
def firstDup : List Str → Option Str
  | [] => none
  | x :: xs => if x ∈ xs then some x else firstDup xs

/-- Modelled from the spec: `EnumClassParser.__init__` (absent
`absl/flags/_argument_parser.py`): a non-enum argument raises a type
error, an empty enum class a value error, and — only when
case-insensitive — two members whose lowercased names collide raise a
duplicate-name value error naming the colliding lowercased variant. -/
def enumClassInit (arg : EnumClassArg) (caseSensitive : Bool) :
    Except InitError ParserCfg :=
  match arg with
  | .notAnEnum => .error (.typeError ("Expected an Enum class"))
  | .enumOf members =>
    if members = [] then .error (.valueError ("Empty enum class"))
    else if caseSensitive then .ok (.enumClass members true)
    else
      match firstDup (members.map strLower) with
      | some d => .error (.valueError ("Duplicate enum values for " ++ String.mk d))
      | none => .ok (.enumClass members false)

/-- An error raised by a flag operation. -/
inductive FlagError where
  | illegalFlagValue (msg : String)
  | unrecognizedFlag (name : String)
  deriving DecidableEq

/-- Modelled from the spec: the mutable state of one `Flag` (absent
`absl/flags/_flag.py`): parser, current value, parsed default, the
`using_default_value` marker, the `present` occurrence count and the
per-flag validator list. -/
structure Flag (α : Type) where
  name : String
  parserFn : Str → Option α
  value : α
  default : α
  using_default_value : Bool
  present : Nat
  validators : List (α → Bool)

/-- Modelled from the spec: `Flag.parse` — convert the argument with the
parser, run this flag's validators on the candidate, and only on success
commit `value`, `present + 1` and `using_default_value := false`
together; on any failure the returned state is the unchanged flag.  The
pair's second component is the raised error, if any. -/
def Flag.parseArg {α : Type} (f : Flag α) (arg : Str) : Flag α × Option FlagError :=
  match f.parserFn arg with
  | none => (f, some (.illegalFlagValue ("flag --" ++ f.name ++ ": illegal value")))
  | some v =>
    if f.validators.all (fun p => p v) then
      ({ f with value := v, present := f.present + 1, using_default_value := false },
       none)
    else (f, some (.illegalFlagValue ("flag --" ++ f.name ++ ": Flag validation failed")))

/-- Modelled from the spec: direct assignment `flag.value = x` — the
same validate-then-commit path, but `present` is not incremented. -/
def Flag.setValue {α : Type} (f : Flag α) (v : α) : Flag α × Option FlagError :=
  if f.validators.all (fun p => p v) then
    ({ f with value := v, using_default_value := false }, none)
  else (f, some (.illegalFlagValue ("flag --" ++ f.name ++ ": Flag validation failed")))

/-- Modelled from the spec: `Flag._set_default` — parse and store the
new default; only when the flag is still using its default does the live
value advance with it. -/
def Flag.setDefault {α : Type} (f : Flag α) (newDefault : Str) : Flag α × Option FlagError :=
  match f.parserFn newDefault with
  | none => (f, some (.illegalFlagValue ("flag --" ++ f.name ++ ": illegal default")))
  | some d =>
    if f.using_default_value then ({ f with default := d, value := d }, none)
    else ({ f with default := d }, none)

/-- The integer flag `n = 1` of the spec's concrete scenario 2. -/
def intFlagOne : Flag Int :=
  { name := "n", parserFn := parseIntChars, value := 1, default := 1,
    using_default_value := true, present := 0, validators := [] }

/-- Modelled from the spec: the per-flag mutable state that a flagsaver
snapshot copies (absent `absl/testing/flagsaver.py`): value, default,
`using_default_value`, `present`, and the validator list.  Registry
flags are string-typed, as in `flagsaver_test.py`. -/
structure RFlag where
  value : Option String
  default : Option String
  using_default_value : Bool
  present : Nat
  validators : List (Option String → Bool)

/-- Modelled from the spec: the `FlagValues` registry — flags in
registration order plus the registry-level multi-flag validators, each a
scope (list of flag names) and a predicate over the scope's current
values. -/
structure FlagValues where
  flags : List (String × RFlag)
  multiValidators : List (List String × (List (String × Option String) → Bool))

/-- Name-indexed flag lookup (`FLAGS[name]`). -/
def lookupFlag (fv : FlagValues) (n : String) : Option RFlag :=
  (fv.flags.find? (fun p => p.1 == n)).map Prod.snd

/-- The registered flag names, in registration order. -/
def flagNames (fv : FlagValues) : List String := fv.flags.map Prod.fst

/-- Registry `__setattr__` commit on one flag: the value is replaced and
the flag is marked as explicitly set; `present` is untouched (flagsaver
override semantics). -/
def setFlagValue (fv : FlagValues) (n : String) (v : String) : FlagValues :=
  { fv with
    flags := fv.flags.map (fun p =>
      if p.1 == n then (p.1, { p.2 with value := some v, using_default_value := false })
      else p) }

/-- The current value of every flag in a validator's scope. -/
def scopeValues (fv : FlagValues) (scope : List String) : List (String × Option String) :=
  scope.map (fun n => (n,
    match lookupFlag fv n with
    | some f => f.value
    | none => none))

/-- Modelled from the spec: after a change batch touching `touched`,
every single-flag validator of a touched flag and every multi-flag
validator whose scope meets the touched set runs on the current registry
values; the first failure raises `IllegalFlagValueError` with the
message contains the substring Flag validation failed. -/
def validateBatch (fv : FlagValues) (touched : List String) : Option FlagError :=
  match touched.find? (fun n =>
      match lookupFlag fv n with
      | some f => !(f.validators.all (fun p => p f.value))
      | none => false) with
  | some n => some (.illegalFlagValue (("flag --" ++ n ++ ": ") ++ "Flag validation failed"))
  | none =>
    match fv.multiValidators.find? (fun sv =>
        sv.1.any (fun n => touched.contains n) && !(sv.2 (scopeValues fv sv.1))) with
    | some sv =>
      some (.illegalFlagValue
        ("Flag validation failed" ++ (": " ++ String.intercalate (", ") sv.1)))
    | none => none

/-- One flagsaver override: a keyword argument (`name=value`) or a
flag-holder pair (`(FLAG, value)`), both reduced to a flag name and the
new value. -/
structure Override where
  viaHolder : Bool
  name : String
  val : String
  deriving DecidableEq

/-- Applies the overrides left to right through the registry setter; an
unknown flag name raises `UnrecognizedFlagError`, leaving the overrides
already applied in the returned (partial) state. -/
def applyOverrides (fv : FlagValues) : List Override → FlagValues × Option FlagError
  | [] => (fv, none)
  | ov :: rest =>
    match lookupFlag fv ov.name with
    | none => (fv, some (.unrecognizedFlag ov.name))
    | some _ => applyOverrides (setFlagValue fv ov.name ov.val) rest

/-- Modelled from the spec: `__enter__` after the snapshot — apply every
override, then run the validators once over the whole batch. -/
def flagsaverEnter (fv : FlagValues) (ovs : List Override) :
    FlagValues × Option FlagError :=
  let a := applyOverrides fv ovs
  match a.2 with
  | some e => (a.1, some e)
  | none =>
    match validateBatch a.1 (ovs.map Override.name) with
    | some e => (a.1, some e)
    | none => (a.1, none)

/-- What a flagsaver scope can raise: the duplicate-target `ValueError`
at call time, a flag error during override application/validation, or
the body's own exception. -/
inductive RunError where
  | duplicateOverride
  | flagError (e : FlagError)
  | bodyError (msg : String)
  deriving DecidableEq

/-- `restore_flag_values`: every currently registered flag is reset to
its saved state; a flag with no saved state is deleted. -/
def restoreSnapshot (snap cur : FlagValues) : FlagValues :=
  { cur with flags := cur.flags.filterMap (fun p => snap.flags.find? (fun q => q.1 == p.1)) }

/-- Modelled from the spec: one full flagsaver scope (context manager or
decorator).  Duplicate override targets are rejected at call time before
any mutation; otherwise the scope snapshots the registry, applies the
overrides and validates them (restoring and re-raising on failure), runs
the body — an arbitrary registry mutation that may raise — and restores
the snapshot before propagating the body's exception. -/
def flagsaverRun (fv : FlagValues) (ovs : List Override)
    (body : FlagValues → FlagValues × Option String) : FlagValues × Option RunError :=
  if (ovs.map Override.name).Nodup then
    let en := flagsaverEnter fv ovs
    match en.2 with
    | some e => (restoreSnapshot fv en.1, some (.flagError e))
    | none =>
      let r := body en.1
      (restoreSnapshot fv r.1, r.2.map RunError.bodyError)
  else (fv, some .duplicateOverride)

/-- `logging.FATAL` (equal to `logging.CRITICAL`, 50) in the platform
logging module. -/
def FATAL : Int := 50

/-- A platform log record as `PythonHandler.emit` consumes it: the
severity `levelno` and whether `record.__dict__` carries the
`_ABSL_LOG_FATAL` marker. -/
structure LogRecord where
  levelno : Int
  absl_log_fatal : Bool
  deriving DecidableEq

/-- `_is_absl_fatal_record` (absl/logging/__init__.py line 630). -/
def is_absl_fatal_record (r : LogRecord) : Bool :=
  decide (FATAL ≤ r.levelno) && r.absl_log_fatal

/-- The record created by `ABSLLogger.log` (absl/logging/__init__.py
line 929): at FATAL severity and above the `_ABSL_LOG_FATAL` extra is
set on the record. -/
def abslLoggerRecord (level : Int) : LogRecord :=
  { levelno := level, absl_log_fatal := decide (FATAL ≤ level) }

/-- The state `PythonHandler.emit` reads and writes: the registry's
`is_parsed` latch, the three logging flags, whether the handler's own
stream is stderr, and the module-global `_warn_preinit_stderr` latch. -/
structure EmitState where
  flags_parsed : Bool
  logtostderr : Bool
  alsologtostderr : Bool
  stderr_threshold : Int
  stream_is_stderr : Bool
  warn_preinit_stderr : Bool
  deriving DecidableEq

/-- One item written to stderr by `emit`. -/
inductive StderrItem where
  | preinitWarning
  | record (r : LogRecord)
  deriving DecidableEq

/-- What one `emit` call produced: the stderr writes in order, the
writes to the handler's own stream, and whether `os.abort` was
reached. -/
structure EmitOut where
  stderr : List StderrItem
  stream : List LogRecord
  aborted : Bool
  deriving DecidableEq

/-- `PythonHandler.emit` (absl/logging/__init__.py lines 714–754).
Before flag parsing everything goes to stderr, preceded (once per
process) by the pre-init warning line; with `--logtostderr` the record
goes to stderr only; otherwise it goes to the stream, copied to stderr
when `--alsologtostderr` or the severity reaches the stderr threshold
and the stream is not already stderr.  Afterwards, an absl-fatal record
flushes and calls `os.abort`. -/
def emit (s : EmitState) (r : LogRecord) : EmitState × EmitOut :=
  let die := is_absl_fatal_record r
  if !s.flags_parsed then
    ({ s with warn_preinit_stderr := false },
     { stderr := (if s.warn_preinit_stderr then [.preinitWarning] else []) ++ [.record r],
       stream := [], aborted := die })
  else if s.logtostderr then
    (s, { stderr := [.record r], stream := [], aborted := die })
  else
    (s, { stderr :=
            if (s.alsologtostderr || decide (s.stderr_threshold ≤ r.levelno))
                && !s.stream_is_stderr then [.record r] else [],
          stream := [r], aborted := die })

/-- A sequence of `emit` calls in one process; an abort ends the
process, so no further records are emitted after it. -/
def emitSeq (s : EmitState) : List LogRecord → EmitState × List StderrItem
  | [] => (s, [])
  | r :: rs =>
    if (emit s r).2.aborted then ((emit s r).1, (emit s r).2.stderr)
    else ((emitSeq (emit s r).1 rs).1, (emit s r).2.stderr ++ (emitSeq (emit s r).1 rs).2)

/-- The log records among a list of stderr writes, in order. -/
def stderrRecords (items : List StderrItem) : List LogRecord :=
  items.filterMap (fun i =>
    match i with
    | .record r => some r
    | .preinitWarning => none)

/-- A registry string flag at its `None` default, with no validators. -/
def rflagDefault : RFlag :=
  { value := none, default := none, using_default_value := true, present := 0,
    validators := [] }

/-- The cross-flag predicate of the spec's scenario 5: the two values in
scope must be equal. -/
def pairEqual : List (String × Option String) → Bool
  | [(_, x), (_, y)] => x == y
  | _ => true

/-- The registry of scenario 5: flags `A` and `B` at their `None`
defaults and one multi-flag validator requiring `A == B`. -/
def fvAB : FlagValues :=
  { flags := [("A", rflagDefault), ("B", rflagDefault)],
    multiValidators := [(["A", "B"], pairEqual)] }

/-- A scope body that changes nothing and raises nothing. -/
def idBody : FlagValues → FlagValues × Option String := fun x => (x, none)

/-- A scope body that overwrites every field of every flag (value,
default, `using_default_value`, `present`, validators) and then raises
an exception. -/
def mutateBody : FlagValues → FlagValues × Option String := fun x =>
  ({ x with
      flags := x.flags.map (fun p => (p.1,
        { value := some ("mutated"), default := some ("mutated default"),
          using_default_value := false, present := 7,
          validators := [fun _ => false] })) },
   some ("boom"))

theorem toNat_ofNat_small {n : Nat} (h : n < 55296) : (Char.ofNat n).toNat = n := by
  have h2 : n.isValidChar := Or.inl h
  rw [Char.ofNat, dif_pos h2]
  rfl

theorem lowerChar_toNat_of_upper {c : Char} (h : 65 ≤ c.toNat ∧ c.toNat ≤ 90) :
    (lowerChar c).toNat = c.toNat + 32 := by
  unfold lowerChar
  rw [if_pos h]
  exact toNat_ofNat_small (by omega)

theorem lowerChar_of_not_upper {c : Char} (h : ¬(65 ≤ c.toNat ∧ c.toNat ≤ 90)) :
    lowerChar c = c := if_neg h

theorem lowerChar_idem (c : Char) : lowerChar (lowerChar c) = lowerChar c := by
  by_cases h : 65 ≤ c.toNat ∧ c.toNat ≤ 90
  · have h1 := lowerChar_toNat_of_upper h
    exact lowerChar_of_not_upper (by omega)
  · rw [lowerChar_of_not_upper h, lowerChar_of_not_upper h]

theorem strLower_idem (s : Str) : strLower (strLower s) = strLower s := by
  unfold strLower
  rw [List.map_map]
  exact List.map_congr_left (fun c _ => lowerChar_idem c)

theorem toDigitChar_toNat {d : Nat} (h : d < 10) : (toDigitChar d).toNat = 48 + d :=
  toNat_ofNat_small (by omega)

theorem toDigitChar_range {d : Nat} (h : d < 10) :
    48 ≤ (toDigitChar d).toNat ∧ (toDigitChar d).toNat ≤ 57 := by
  rw [toDigitChar_toNat h]
  omega

theorem digitVal_toDigitChar {d : Nat} (h : d < 10) :
    digitVal (toDigitChar d) = some d := by
  have ht := toDigitChar_toNat h
  unfold digitVal
  rw [ht, if_pos (by omega)]
  congr 1
  omega

theorem natDigits_ne_nil (n : Nat) : natDigits n ≠ [] := by
  rw [natDigits]
  split
  · simp
  · simp

theorem mem_natDigits (n : Nat) : ∀ c ∈ natDigits n, 48 ≤ c.toNat ∧ c.toNat ≤ 57 := by
  induction n using Nat.strong_induction_on with
  | _ n ih =>
    rw [natDigits]
    split
    · next h =>
      intro c hc
      rw [List.mem_singleton] at hc
      exact hc ▸ toDigitChar_range h
    · next h =>
      intro c hc
      rw [List.mem_append] at hc
      rcases hc with hc | hc
      · exact ih (n / 10) (by omega) c hc
      · rw [List.mem_singleton] at hc
        exact hc ▸ toDigitChar_range (Nat.mod_lt n (by omega))

theorem parseDigitsAux_append (l1 l2 : List Char) (acc : Nat) :
    parseDigitsAux (l1 ++ l2) acc =
      match parseDigitsAux l1 acc with
      | some m => parseDigitsAux l2 m
      | none => none := by
  induction l1 generalizing acc with
  | nil => rfl
  | cons c cs ih =>
    simp only [List.cons_append, parseDigitsAux]
    cases digitVal c with
    | some d => exact ih _
    | none => rfl

theorem parseDigitsAux_natDigits (n : Nat) : ∀ acc : Nat,
    parseDigitsAux (natDigits n) acc =
      some (acc * 10 ^ (natDigits n).length + n) := by
  induction n using Nat.strong_induction_on with
  | _ n ih =>
    intro acc
    rw [natDigits]
    split
    · next h =>
      simp only [parseDigitsAux, digitVal_toDigitChar h, List.length_singleton]
      norm_num
    · next h =>
      rw [parseDigitsAux_append]
      rw [ih (n / 10) (by omega) acc]
      simp only [parseDigitsAux, digitVal_toDigitChar (Nat.mod_lt n (by omega)),
        List.length_append, List.length_singleton]
      have hlen : 10 ^ ((natDigits (n / 10)).length + 1) =
          10 ^ (natDigits (n / 10)).length * 10 := pow_succ 10 _
      rw [hlen]
      congr 1
      have := Nat.div_add_mod n 10
      ring_nf
      omega

theorem parseDigits_natDigits (n : Nat) : parseDigits (natDigits n) = some n := by
  cases h : natDigits n with
  | nil => exact absurd h (natDigits_ne_nil n)
  | cons c cs =>
    have := parseDigitsAux_natDigits n 0
    rw [h] at this
    simp only [parseDigits, this, Nat.zero_mul, Nat.zero_add]

theorem ne_dash_of_digit {c : Char} (h : 48 ≤ c.toNat ∧ c.toNat ≤ 57) : c ≠ '-' := by
  intro hEq
  subst hEq
  revert h
  decide

theorem not_dot_mem_natDigits (n : Nat) : '.' ∉ natDigits n := by
  intro h
  have := mem_natDigits n '.' h
  revert this
  decide

theorem parseIntChars_intChars (i : Int) : parseIntChars (intChars i) = some i := by
  unfold intChars
  split
  · next h =>
    simp only [parseIntChars, if_pos rfl, parseDigits_natDigits]
    show some (-(i.natAbs : Int)) = some i
    rw [Option.some_inj]
    omega
  · next h =>
    cases hd : natDigits i.toNat with
    | nil => exact absurd hd (natDigits_ne_nil _)
    | cons c cs =>
      have hc := mem_natDigits _ c (hd ▸ List.mem_cons_self c cs)
      have hne := ne_dash_of_digit hc
      have hp := parseDigits_natDigits i.toNat
      rw [hd] at hp
      simp only [parseIntChars, if_neg hne, hp]
      show some ((i.toNat : Int)) = some i
      rw [Option.some_inj]
      omega

theorem digitVal_lt {c : Char} {d : Nat} (h : digitVal c = some d) : d < 10 := by
  unfold digitVal at h
  split at h
  · next hcond =>
    injection h with h2
    omega
  · exact absurd h (by simp)

theorem parseFracDigits_map {ds : List Nat} (h : ∀ d ∈ ds, d < 10) :
    parseFracDigits (ds.map toDigitChar) = some ds := by
  induction ds with
  | nil => rfl
  | cons d t ih =>
    simp only [List.map_cons, parseFracDigits,
      digitVal_toDigitChar (h d (List.mem_cons_self d t)),
      ih (fun x hx => h x (List.mem_cons_of_mem d hx))]

theorem parseFracDigits_lt {l : List Char} {ds : List Nat}
    (h : parseFracDigits l = some ds) : ∀ d ∈ ds, d < 10 := by
  induction l generalizing ds with
  | nil =>
    simp only [parseFracDigits, Option.some_inj] at h
    subst h
    intro d hd
    simp at hd
  | cons c cs ih =>
    simp only [parseFracDigits] at h
    cases hc : digitVal c with
    | none => rw [hc] at h; exact absurd h (by simp)
    | some d0 =>
      rw [hc] at h
      cases hcs : parseFracDigits cs with
      | none => rw [hcs] at h; exact absurd h (by simp)
      | some t =>
        rw [hcs] at h
        simp only [Option.some_inj] at h
        subst h
        intro d hd
        rcases List.mem_cons.mp hd with rfl | hd
        · exact digitVal_lt hc
        · exact ih hcs d hd

theorem splitOn_dot_serialized {a b : List Char} (ha : '.' ∉ a) (hb : '.' ∉ b) :
    (a ++ '.' :: b).splitOn '.' = [a, b] := by
  have h := List.splitOn_intercalate [a, b] '.'
    (by
      intro l hl
      rcases List.mem_cons.mp hl with rfl | hl
      · exact ha
      · rcases List.mem_cons.mp hl with rfl | hl
        · exact hb
        · simp at hl)
    (by simp)
  simpa [List.intercalate] using h

theorem parseFloat_serializeFloat {f : DecFloat} (hne : f.frac ≠ [])
    (hlt : ∀ d ∈ f.frac, d < 10) : parseFloat (serializeFloat f) = some f := by
  have hdot : '.' ∉ f.frac.map toDigitChar := by
    intro h
    rcases List.mem_map.mp h with ⟨d, hdm, hd⟩
    have ht := toDigitChar_toNat (hlt d hdm)
    rw [hd] at ht
    have h46 : ('.').toNat = 46 := rfl
    omega
  have hsplit := splitOn_dot_serialized (not_dot_mem_natDigits f.ip) hdot
  have hsign : splitSign (serializeFloat f) =
      (f.neg, natDigits f.ip ++ '.' :: f.frac.map toDigitChar) := by
    unfold serializeFloat
    cases hn : f.neg with
    | true => simp [splitSign]
    | false =>
      simp only [if_neg Bool.false_ne_true, List.nil_append]
      cases hd : natDigits f.ip with
      | nil => exact absurd hd (natDigits_ne_nil _)
      | cons c cs =>
        have hc := ne_dash_of_digit (mem_natDigits _ c (hd ▸ List.mem_cons_self c cs))
        simp [splitSign, hc]
  have hmne : f.frac.map toDigitChar ≠ [] := by
    simpa only [ne_eq, List.map_eq_nil_iff] using hne
  unfold parseFloat
  rw [hsign]
  show parseFloatAfterSign f.neg _ = some f
  unfold parseFloatAfterSign
  rw [hsplit]
  simp only [parseDigits_natDigits, Option.some_bind, if_neg hmne,
    parseFracDigits_map hlt, Option.map_some']

theorem parseFracDigits_ne_nil {l : List Char} {ds : List Nat} (hl : l ≠ [])
    (h : parseFracDigits l = some ds) : ds ≠ [] := by
  cases l with
  | nil => exact absurd rfl hl
  | cons c cs =>
    simp only [parseFracDigits] at h
    cases hc : digitVal c with
    | none => rw [hc] at h; simp at h
    | some d =>
      rw [hc] at h
      cases hcs : parseFracDigits cs with
      | none => rw [hcs] at h; simp at h
      | some t =>
        rw [hcs] at h
        simp only [Option.some_inj] at h
        subst h
        simp

theorem parseFloat_legal {s : Str} {f : DecFloat} (h : parseFloat s = some f) :
    f.frac ≠ [] ∧ ∀ d ∈ f.frac, d < 10 := by
  unfold parseFloat parseFloatAfterSign at h
  split at h
  · next ipart fpart heq =>
    cases hip : parseDigits ipart with
    | none => rw [hip] at h; exact absurd h (by simp)
    | some ip =>
      rw [hip] at h
      simp only [Option.some_bind] at h
      by_cases hfp : fpart = []
      · rw [if_pos hfp] at h; exact absurd h (by simp)
      · rw [if_neg hfp] at h
        cases hds : parseFracDigits fpart with
        | none => rw [hds] at h; exact absurd h (by simp)
        | some ds =>
          rw [hds] at h
          have h2 : (⟨(splitSign s).1, ip, ds⟩ : DecFloat) = f := by
            exact Option.some_inj.mp h
          subst h2
          exact ⟨parseFracDigits_ne_nil hfp hds, parseFracDigits_lt hds⟩
  · exact absurd h (by simp)

theorem parseBool_serializeBool (b : Bool) : parseBool (serializeBool b) = some b := by
  cases b <;> decide

theorem find?_lowered {members : List Str} {m : Str}
    (hnd : (members.map strLower).Nodup) (hm : m ∈ members) :
    members.find? (fun x => strLower x == strLower m) = some m := by
  induction members with
  | nil => simp at hm
  | cons a t ih =>
    rw [List.map_cons, List.nodup_cons] at hnd
    rcases List.mem_cons.mp hm with rfl | hmt
    · exact List.find?_cons_of_pos _ (by simp)
    · by_cases ha : strLower a = strLower m
      · exact absurd (ha ▸ List.mem_map_of_mem strLower hmt) hnd.1
      · rw [List.find?_cons_of_neg _ (by simpa using ha)]
        exact ih hnd.2 hmt

theorem parseEnumMember_roundtrip {members : List Str} {m : Str} {cs : Bool}
    (hnd : cs = true ∨ (members.map strLower).Nodup) (hm : m ∈ members) :
    parseEnumMember members cs (serializeEnumMember (!cs) m) = some m := by
  cases cs with
  | true =>
    show (if m ∈ members then some m else none) = some m
    exact if_pos hm
  | false =>
    have hnd2 : (members.map strLower).Nodup := by
      rcases hnd with h | h
      · exact absurd h (by simp)
      · exact h
    show members.find? (fun x => strLower x == strLower (strLower m)) = some m
    simp only [strLower_idem]
    exact find?_lowered hnd2 hm

theorem parseEnumMember_mem {members : List Str} {cs : Bool} {s v : Str}
    (h : parseEnumMember members cs s = some v) : v ∈ members := by
  unfold parseEnumMember at h
  split at h
  · split at h
    · exact (Option.some_inj.mp h) ▸ (by assumption)
    · simp at h
  · exact List.mem_of_find?_eq_some h

theorem mem_splitOnP {α : Type} (p : α → Bool) (xs : List α) :
    ∀ l ∈ xs.splitOnP p, ∀ a ∈ l, ¬p a := by
  induction xs with
  | nil =>
    intro l hl a ha
    simp only [List.splitOnP_nil, List.mem_singleton] at hl
    subst hl
    simp at ha
  | cons x xs ih =>
    intro l hl a ha
    rw [List.splitOnP_cons] at hl
    by_cases hx : p x
    · rw [if_pos hx] at hl
      rcases List.mem_cons.mp hl with rfl | hl
      · simp at ha
      · exact ih l hl a ha
    · rw [if_neg hx] at hl
      cases hs : xs.splitOnP p with
      | nil => exact absurd hs (List.splitOnP_ne_nil p xs)
      | cons h0 t =>
        rw [hs, List.modifyHead_cons] at hl
        rcases List.mem_cons.mp hl with rfl | hl
        · rcases List.mem_cons.mp ha with rfl | ha
          · exact hx
          · exact ih h0 (hs ▸ List.mem_cons_self h0 t) a ha
        · exact ih l (hs ▸ List.mem_cons_of_mem h0 hl) a ha

theorem mem_splitOn_not_mem {s : Str} {sep : Char} :
    ∀ l ∈ s.splitOn sep, sep ∉ l := by
  intro l hl hmem
  exact mem_splitOnP (· == sep) s l hl sep hmem (by simp)

theorem splitOn_ne_single_nil {s : Str} {sep : Char} (h : s ≠ []) :
    s.splitOn sep ≠ [[]] := by
  intro hs
  have := List.intercalate_splitOn s sep
  rw [hs] at this
  simp [List.intercalate] at this
  exact h this

theorem intercalate_ne_nil {sep : Char} {xs : List Str} (h1 : xs ≠ [])
    (h2 : xs ≠ [[]]) : [sep].intercalate xs ≠ [] := by
  match xs with
  | [] => exact absurd rfl h1
  | [a] =>
    have ha : a ≠ [] := by
      intro h
      exact h2 (by rw [h])
    simpa [List.intercalate] using ha
  | a :: b :: t =>
    simp [List.intercalate]

theorem serializeEnumMember_ne_nil {m : Str} (hm : m ≠ []) (lc : Bool) :
    serializeEnumMember lc m ≠ [] := by
  unfold serializeEnumMember
  split
  · simpa only [ne_eq, strLower, List.map_eq_nil_iff]
  · exact hm

theorem mapOption_serialized {members : List Str} {cs : Bool}
    (hnd : cs = true ∨ (members.map strLower).Nodup) :
    ∀ xs : List Str, (∀ x ∈ xs, x ∈ members) →
      mapOption (parseEnumMember members cs) (xs.map (serializeEnumMember (!cs))) =
        some xs := by
  intro xs
  induction xs with
  | nil => intro _; rfl
  | cons x t ih =>
    intro hmem
    simp only [List.map_cons, mapOption,
      parseEnumMember_roundtrip hnd (hmem x (List.mem_cons_self x t)),
      ih (fun y hy => hmem y (List.mem_cons_of_mem x hy))]

theorem mapOption_forall {f : Str → Option Str} {P : Str → Prop}
    (hf : ∀ x y, f x = some y → P y) :
    ∀ {l ys}, mapOption f l = some ys → ∀ y ∈ ys, P y := by
  intro l
  induction l with
  | nil =>
    intro ys h y hy
    simp only [mapOption, Option.some_inj] at h
    subst h
    simp at hy
  | cons x t ih =>
    intro ys h y hy
    simp only [mapOption] at h
    cases hx : f x with
    | none => rw [hx] at h; simp at h
    | some y0 =>
      rw [hx] at h
      cases ht : mapOption f t with
      | none => rw [ht] at h; simp at h
      | some ys0 =>
        rw [ht] at h
        simp only [Option.some_inj] at h
        subst h
        rcases List.mem_cons.mp hy with rfl | hy
        · exact hf x y hx
        · exact ih ht y hy

/-- Round trip: parsing the serialized form of any legal typed value
returns that value. -/
theorem pparse_pserialize (cfg : ParserCfg) (v : PVal) (hwf : cfgWF cfg = true)
    (hleg : plegal cfg v = true) : pparse cfg (pserialize cfg v) = some v := by
  cases cfg with
  | boolean =>
    cases v with
    | pb b =>
      show (parseBool (serializeBool b)).map PVal.pb = some (.pb b)
      rw [parseBool_serializeBool]
      rfl
    | pint n => exact absurd hleg (by simp [plegal])
    | pfl f => exact absurd hleg (by simp [plegal])
    | pstr s => exact absurd hleg (by simp [plegal])
    | plist xs => exact absurd hleg (by simp [plegal])
  | integer =>
    cases v with
    | pint n =>
      show (parseIntChars (intChars n)).map PVal.pint = some (.pint n)
      rw [parseIntChars_intChars]
      rfl
    | pb b => exact absurd hleg (by simp [plegal])
    | pfl f => exact absurd hleg (by simp [plegal])
    | pstr s => exact absurd hleg (by simp [plegal])
    | plist xs => exact absurd hleg (by simp [plegal])
  | floating =>
    cases v with
    | pfl f =>
      rw [plegal, decide_eq_true_eq] at hleg
      show (parseFloat (serializeFloat f)).map PVal.pfl = some (.pfl f)
      rw [parseFloat_serializeFloat hleg.1 hleg.2]
      rfl
    | pb b => exact absurd hleg (by simp [plegal])
    | pint n => exact absurd hleg (by simp [plegal])
    | pstr s => exact absurd hleg (by simp [plegal])
    | plist xs => exact absurd hleg (by simp [plegal])
  | enum values =>
    cases v with
    | pstr s =>
      rw [plegal, decide_eq_true_eq] at hleg
      show (if s ∈ values then some (PVal.pstr s) else none) = some (.pstr s)
      rw [if_pos hleg]
    | pb b => exact absurd hleg (by simp [plegal])
    | pint n => exact absurd hleg (by simp [plegal])
    | pfl f => exact absurd hleg (by simp [plegal])
    | plist xs => exact absurd hleg (by simp [plegal])
  | enumClass members cs =>
    cases v with
    | pstr s =>
      rw [plegal, decide_eq_true_eq] at hleg
      rw [cfgWF, decide_eq_true_eq] at hwf
      show (parseEnumMember members cs (serializeEnumMember (!cs) s)).map PVal.pstr =
        some (.pstr s)
      rw [parseEnumMember_roundtrip hwf.2 hleg]
      rfl
    | pb b => exact absurd hleg (by simp [plegal])
    | pint n => exact absurd hleg (by simp [plegal])
    | pfl f => exact absurd hleg (by simp [plegal])
    | plist xs => exact absurd hleg (by simp [plegal])
  | csvList sep =>
    cases v with
    | plist xs =>
      rw [plegal, decide_eq_true_eq] at hleg
      show some (PVal.plist (if [sep].intercalate xs = [] then []
        else ([sep].intercalate xs).splitOn sep)) = some (.plist xs)
      by_cases hxs : xs = []
      · subst hxs
        simp [List.intercalate]
      · rw [if_neg (intercalate_ne_nil hxs hleg.2),
          List.splitOn_intercalate xs sep (fun l hl => hleg.1 l hl) hxs]
    | pb b => exact absurd hleg (by simp [plegal])
    | pint n => exact absurd hleg (by simp [plegal])
    | pfl f => exact absurd hleg (by simp [plegal])
    | pstr s => exact absurd hleg (by simp [plegal])
  | enumClassList members cs sep =>
    cases v with
    | plist xs =>
      rw [plegal, decide_eq_true_eq] at hleg
      rw [cfgWF, decide_eq_true_eq] at hwf
      show (if [sep].intercalate (xs.map (serializeEnumMember (!cs))) = []
          then some (PVal.plist [])
          else (mapOption (parseEnumMember members cs)
            (([sep].intercalate (xs.map (serializeEnumMember (!cs)))).splitOn sep)).map
              PVal.plist) = some (.plist xs)
      by_cases hxs : xs = []
      · subst hxs
        simp [List.intercalate]
      · have hmapne : xs.map (serializeEnumMember (!cs)) ≠ [] := by
          simpa only [ne_eq, List.map_eq_nil_iff]
        have hser : ∀ y ∈ xs.map (serializeEnumMember (!cs)), sep ∉ y ∧ y ≠ [] := by
          intro y hy
          rcases List.mem_map.mp hy with ⟨x, hx, rfl⟩
          have hxm := hwf.2.2 x (hleg x hx)
          refine ⟨?_, serializeEnumMember_ne_nil hxm.1 (!cs)⟩
          unfold serializeEnumMember
          split
          · exact hxm.2.2
          · exact hxm.2.1
        have hmapnn : xs.map (serializeEnumMember (!cs)) ≠ [[]] := by
          intro hcon
          have := hser [] (by rw [hcon]; exact List.mem_singleton_self [])
          exact this.2 rfl
        rw [if_neg (intercalate_ne_nil hmapne hmapnn),
          List.splitOn_intercalate _ sep (fun l hl => (hser l hl).1) hmapne,
          mapOption_serialized hwf.2.1 xs hleg]
        rfl
    | pb b => exact absurd hleg (by simp [plegal])
    | pint n => exact absurd hleg (by simp [plegal])
    | pfl f => exact absurd hleg (by simp [plegal])
    | pstr s => exact absurd hleg (by simp [plegal])

theorem flagNames_setFlagValue (fv : FlagValues) (n v : String) :
    flagNames (setFlagValue fv n v) = flagNames fv := by
  unfold flagNames setFlagValue
  simp only [List.map_map]
  apply List.map_congr_left
  intro p _
  show (if (p.1 == n) = true then _ else p).1 = p.1
  split <;> rfl

theorem flagNames_applyOverrides (ovs : List Override) :
    ∀ fv : FlagValues, flagNames (applyOverrides fv ovs).1 = flagNames fv := by
  induction ovs with
  | nil => intro fv; rfl
  | cons ov rest ih =>
    intro fv
    simp only [applyOverrides]
    cases h : lookupFlag fv ov.name with
    | none => rfl
    | some f => rw [ih (setFlagValue fv ov.name ov.val), flagNames_setFlagValue]

theorem flagsaverEnter_fst (fv : FlagValues) (ovs : List Override) :
    (flagsaverEnter fv ovs).1 = (applyOverrides fv ovs).1 := by
  simp only [flagsaverEnter]
  split
  · rfl
  · split
    · rfl
    · rfl

theorem flagNames_enter (fv : FlagValues) (ovs : List Override) :
    flagNames (flagsaverEnter fv ovs).1 = flagNames fv := by
  rw [flagsaverEnter_fst, flagNames_applyOverrides]

theorem lookupFlag_eq_none_iff {fv : FlagValues} {n : String} :
    lookupFlag fv n = none ↔ n ∉ flagNames fv := by
  unfold lookupFlag flagNames
  constructor
  · intro h hmem
    rcases List.mem_map.mp hmem with ⟨p, hp, hpn⟩
    cases hf : fv.flags.find? (fun q => q.1 == n) with
    | none =>
      rw [List.find?_eq_none] at hf
      exact hf p hp (by simp [hpn])
    | some q => rw [hf] at h; simp at h
  · intro hmem
    cases hf : fv.flags.find? (fun q => q.1 == n) with
    | none => rfl
    | some q =>
      have hq := List.find?_some hf
      have hqm := List.mem_of_find?_eq_some hf
      rw [beq_iff_eq] at hq
      exact absurd (List.mem_map.mpr ⟨q, hqm, hq⟩) hmem

theorem filterMap_find_eq (L : List (String × RFlag)) :
    ∀ (l1 l2 : List (String × RFlag)),
      l2.map Prod.fst = l1.map Prod.fst →
      (∀ k ∈ l1.map Prod.fst,
        L.find? (fun q => q.1 == k) = l1.find? (fun q => q.1 == k)) →
      (l1.map Prod.fst).Nodup →
      l2.filterMap (fun p => L.find? (fun q => q.1 == p.1)) = l1 := by
  intro l1
  induction l1 with
  | nil =>
    intro l2 hk _ _
    cases l2 with
    | nil => rfl
    | cons b t2 => simp at hk
  | cons a t1 ih =>
    intro l2 hk hsub hnd
    cases l2 with
    | nil => simp at hk
    | cons b t2 =>
      simp only [List.map_cons, List.cons.injEq] at hk
      obtain ⟨hb, ht⟩ := hk
      rw [List.map_cons, List.nodup_cons] at hnd
      have hfind : L.find? (fun q => q.1 == b.1) = some a := by
        rw [hb, hsub a.1 (by simp), List.find?_cons_of_pos _ (by simp)]
      rw [List.filterMap_cons, hfind]
      show a :: t2.filterMap (fun p => L.find? (fun q => q.1 == p.1)) = a :: t1
      congr 1
      apply ih t2 ht ?_ hnd.2
      intro k hkmem
      have hne : k ≠ a.1 := fun hEq => hnd.1 (hEq ▸ hkmem)
      rw [hsub k (List.mem_cons_of_mem _ hkmem),
        List.find?_cons_of_neg _ (by simp only [beq_iff_eq]; exact fun h => hne h.symm)]

theorem restoreSnapshot_self {fv cur : FlagValues}
    (hk : flagNames cur = flagNames fv) (hnd : (flagNames fv).Nodup) :
    (restoreSnapshot fv cur).flags = fv.flags := by
  unfold restoreSnapshot
  exact filterMap_find_eq fv.flags fv.flags cur.flags hk (fun k _ => rfl) hnd

theorem flagsaverRun_flags {fv : FlagValues} {ovs : List Override}
    {body : FlagValues → FlagValues × Option String}
    (hnd : (flagNames fv).Nodup)
    (hbody : ∀ x, flagNames (body x).1 = flagNames x) :
    (flagsaverRun fv ovs body).1.flags = fv.flags := by
  simp only [flagsaverRun]
  split
  · split
    · exact restoreSnapshot_self (flagNames_enter fv ovs) hnd
    · exact restoreSnapshot_self
        ((hbody (flagsaverEnter fv ovs).1).trans (flagNames_enter fv ovs)) hnd
  · rfl

/-- Every value a parser produces is a legal value of its
configuration. -/
theorem pparse_legal (cfg : ParserCfg) (x : Str) (v : PVal) (hwf : cfgWF cfg = true)
    (h : pparse cfg x = some v) : plegal cfg v = true := by
  cases cfg with
  | boolean =>
    cases hb : parseBool x with
    | none => simp only [pparse] at h; rw [hb] at h; exact absurd h (by simp)
    | some b =>
      simp only [pparse] at h
      rw [hb] at h
      have : PVal.pb b = v := Option.some_inj.mp h
      subst this
      rfl
  | integer =>
    cases hb : parseIntChars x with
    | none => simp only [pparse] at h; rw [hb] at h; exact absurd h (by simp)
    | some n =>
      simp only [pparse] at h
      rw [hb] at h
      have : PVal.pint n = v := Option.some_inj.mp h
      subst this
      rfl
  | floating =>
    cases hb : parseFloat x with
    | none => simp only [pparse] at h; rw [hb] at h; exact absurd h (by simp)
    | some f =>
      simp only [pparse] at h
      rw [hb] at h
      have : PVal.pfl f = v := Option.some_inj.mp h
      subst this
      have := parseFloat_legal hb
      simp only [plegal, decide_eq_true_eq]
      exact this
  | enum values =>
    simp only [pparse] at h
    split at h
    · next hmem =>
      have : PVal.pstr x = v := Option.some_inj.mp h
      subst this
      simp only [plegal, decide_eq_true_eq]
      exact hmem
    · exact absurd h (by simp)
  | enumClass members cs =>
    cases hb : parseEnumMember members cs x with
    | none => simp only [pparse] at h; rw [hb] at h; exact absurd h (by simp)
    | some m =>
      simp only [pparse] at h
      rw [hb] at h
      have : PVal.pstr m = v := Option.some_inj.mp h
      subst this
      simp only [plegal, decide_eq_true_eq]
      exact parseEnumMember_mem hb
  | csvList sep =>
    simp only [pparse] at h
    have : PVal.plist (if x = [] then [] else x.splitOn sep) = v := Option.some_inj.mp h
    subst this
    simp only [plegal, decide_eq_true_eq]
    by_cases hx : x = []
    · rw [if_pos hx]
      exact ⟨by simp, by simp⟩
    · rw [if_neg hx]
      exact ⟨fun l hl => mem_splitOn_not_mem l hl, splitOn_ne_single_nil hx⟩
  | enumClassList members cs sep =>
    simp only [pparse] at h
    split at h
    · have : PVal.plist [] = v := Option.some_inj.mp h
      subst this
      simp [plegal]
    · cases hb : mapOption (parseEnumMember members cs) (x.splitOn sep) with
      | none => rw [hb] at h; exact absurd h (by simp)
      | some ys =>
        rw [hb] at h
        have : PVal.plist ys = v := Option.some_inj.mp h
        subst this
        simp only [plegal, decide_eq_true_eq]
        exact mapOption_forall (fun a b hab => parseEnumMember_mem hab) hb

theorem mutateBody_names (x : FlagValues) : flagNames (mutateBody x).1 = flagNames x := by
  unfold mutateBody flagNames
  simp only [List.map_map]
  apply List.map_congr_left
  intro p _
  rfl

/-- C3: for every well-formed parser/serializer pair (boolean, integer,
float, enum, enum-class, list variants), parsing the serialized form of
any legal typed value returns that value, and parsing is idempotent:
re-parsing the serialization of any parse result reproduces it — in the
enum-class case with the case-insensitive parser paired with the
lowercase serializer. -/
theorem parser_serializer_roundtrip_idempotent (cfg : ParserCfg)
    (hwf : cfgWF cfg = true) :
    (∀ v, plegal cfg v = true → pparse cfg (pserialize cfg v) = some v) ∧
    (∀ x v, pparse cfg x = some v → pparse cfg (pserialize cfg v) = some v) := by
  refine ⟨fun v h => pparse_pserialize cfg v hwf h, fun x v hx => ?_⟩
  exact pparse_pserialize cfg v hwf (pparse_legal cfg x v hwf hx)

theorem parser_serializer_roundtrip_idempotent_witness :
    cfgWF (.enumClass [['A', 'P', 'P', 'L', 'E'], ['B', 'A', 'N', 'A', 'N', 'A']] false) =
      true ∧
    pparse (.enumClass [['A', 'P', 'P', 'L', 'E'], ['B', 'A', 'N', 'A', 'N', 'A']] false)
      (pserialize (.enumClass [['A', 'P', 'P', 'L', 'E'], ['B', 'A', 'N', 'A', 'N', 'A']] false)
        (.pstr ['A', 'P', 'P', 'L', 'E'])) = some (.pstr ['A', 'P', 'P', 'L', 'E']) :=
  ⟨by decide,
   (parser_serializer_roundtrip_idempotent
      (.enumClass [['A', 'P', 'P', 'L', 'E'], ['B', 'A', 'N', 'A', 'N', 'A']] false)
      (by decide)).1 (.pstr ['A', 'P', 'P', 'L', 'E']) (by decide)⟩

/-- C6: `EnumClassParser` construction validates eagerly — a non-enum
argument raises a type error; an empty enum class raises a value error;
case-insensitive construction over an enum with members `APPLE` and
`apple` raises a duplicate-name error naming the colliding variant
`apple`, while case-sensitive construction over the same enum succeeds;
and case-insensitive construction succeeds whenever the lowercased
names have no duplicate. -/
theorem enum_class_init_validation :
    (∀ cs, enumClassInit .notAnEnum cs = .error (.typeError ("Expected an Enum class"))) ∧
    (∀ cs, enumClassInit (.enumOf []) cs = .error (.valueError ("Empty enum class"))) ∧
    (∃ msg, enumClassInit (.enumOf [['A', 'P', 'P', 'L', 'E'], ['a', 'p', 'p', 'l', 'e']])
        false = .error (.valueError msg) ∧ "apple".data <:+: msg.data) ∧
    (enumClassInit (.enumOf [['A', 'P', 'P', 'L', 'E'], ['a', 'p', 'p', 'l', 'e']]) true =
      .ok (.enumClass [['A', 'P', 'P', 'L', 'E'], ['a', 'p', 'p', 'l', 'e']] true)) ∧
    (∀ members, members ≠ [] → firstDup (members.map strLower) = none →
      enumClassInit (.enumOf members) false = .ok (.enumClass members false)) := by
  refine ⟨fun cs => rfl, fun cs => rfl,
    ⟨"Duplicate enum values for apple", rfl, by decide⟩, rfl, ?_⟩
  intro members hne hdup
  simp only [enumClassInit]
  rw [if_neg hne, if_neg Bool.false_ne_true, hdup]

theorem enum_class_init_validation_witness :
    ([['B', 'A', 'N', 'A', 'N', 'A']] : List Str) ≠ [] ∧
    firstDup (([['B', 'A', 'N', 'A', 'N', 'A']] : List Str).map strLower) = none ∧
    enumClassInit (.enumOf [['B', 'A', 'N', 'A', 'N', 'A']]) false =
      .ok (.enumClass [['B', 'A', 'N', 'A', 'N', 'A']] false) :=
  ⟨by decide, by decide,
   enum_class_init_validation.2.2.2.2 [['B', 'A', 'N', 'A', 'N', 'A']] (by decide) (by decide)⟩

theorem parseArg_of_parser_none {α : Type} {f : Flag α} {arg : Str}
    (hp : f.parserFn arg = none) :
    f.parseArg arg = (f, some (.illegalFlagValue ("flag --" ++ f.name ++ ": illegal value"))) := by
  unfold Flag.parseArg
  rw [hp]

theorem parseArg_of_parser_some {α : Type} {f : Flag α} {arg : Str} {v : α}
    (hp : f.parserFn arg = some v) :
    f.parseArg arg =
      if f.validators.all (fun p => p v) then
        ({ f with value := v, present := f.present + 1, using_default_value := false }, none)
      else (f, some (.illegalFlagValue ("flag --" ++ f.name ++ ": Flag validation failed"))) := by
  unfold Flag.parseArg
  rw [hp]

theorem setDefault_of_parser_none {α : Type} {f : Flag α} {dstr : Str}
    (hp : f.parserFn dstr = none) :
    f.setDefault dstr = (f, some (.illegalFlagValue ("flag --" ++ f.name ++ ": illegal default"))) := by
  unfold Flag.setDefault
  rw [hp]

theorem setDefault_of_parser_some {α : Type} {f : Flag α} {dstr : Str} {d : α}
    (hp : f.parserFn dstr = some d) :
    f.setDefault dstr =
      if f.using_default_value then ({ f with default := d, value := d }, none)
      else ({ f with default := d }, none) := by
  unfold Flag.setDefault
  rw [hp]

/-- C2: `Flag.parse` either fails — raising and leaving the flag state
unchanged (in particular the integer flag `n = 1` given `"1e2"` still
reads `1`) — or succeeds, committing the parsed value, `present + 1`
and `using_default_value := false` together; direct assignment follows
the same validate-then-commit path but leaves `present` unchanged. -/
theorem flag_parse_validate_then_commit {α : Type} (f : Flag α) (arg : Str) (x : α) :
    (∀ e, (f.parseArg arg).2 = some e → (f.parseArg arg).1 = f) ∧
    ((f.parseArg arg).2 = none →
      ∃ v, f.parserFn arg = some v ∧ f.validators.all (fun p => p v) = true ∧
        (f.parseArg arg).1 =
          { f with value := v, present := f.present + 1, using_default_value := false }) ∧
    (∀ e, (f.setValue x).2 = some e → (f.setValue x).1 = f) ∧
    ((f.setValue x).2 = none →
      f.validators.all (fun p => p x) = true ∧
      (f.setValue x).1 = { f with value := x, using_default_value := false }) ∧
    (f.setValue x).1.present = f.present ∧
    (intFlagOne.parseArg ['1', 'e', '2']).2.isSome = true ∧
    (intFlagOne.parseArg ['1', 'e', '2']).1.value = 1 := by
  refine ⟨?_, ?_, ?_, ?_, ?_, rfl, rfl⟩
  · intro e he
    cases hp : f.parserFn arg with
    | none => rw [parseArg_of_parser_none hp]
    | some v =>
      rw [parseArg_of_parser_some hp] at he ⊢
      split at he
      · simp at he
      · next hval => rw [if_neg hval]
  · intro hn
    cases hp : f.parserFn arg with
    | none => rw [parseArg_of_parser_none hp] at hn; simp at hn
    | some v =>
      rw [parseArg_of_parser_some hp] at hn ⊢
      split at hn
      · next hval => exact ⟨v, rfl, hval, by rw [if_pos hval]⟩
      · simp at hn
  · intro e he
    unfold Flag.setValue at he ⊢
    split at he
    · simp at he
    · next hval => rw [if_neg hval]
  · intro hn
    unfold Flag.setValue at hn ⊢
    split at hn
    · next hval => exact ⟨hval, by rw [if_pos hval]⟩
    · simp at hn
  · unfold Flag.setValue
    split <;> rfl

theorem flag_parse_validate_then_commit_witness :
    (intFlagOne.parseArg ['5']).1 =
      { intFlagOne with value := 5, present := 1, using_default_value := false } ∧
    (intFlagOne.parseArg ['1', 'e', '2']).1 = intFlagOne := by
  have h5 := flag_parse_validate_then_commit intFlagOne ['5'] 0
  have hbad := flag_parse_validate_then_commit intFlagOne ['1', 'e', '2'] 0
  constructor
  · obtain ⟨v, hv, _, hres⟩ := h5.2.1 rfl
    have hv5 : (5 : Int) = v := Option.some_inj.mp hv
    rw [hres, ← hv5]
    rfl
  · exact hbad.1 (.illegalFlagValue ("flag --" ++ intFlagOne.name ++ ": illegal value")) rfl

/-- C7: `_set_default` parses and stores the new default; the live value
advances to the new default exactly when `using_default_value` is true,
and is untouched otherwise; `present`, `using_default_value` and the
validator list are untouched; and no other operation couples default
and current value — `parse` and direct assignment leave the default
unchanged. -/
theorem flag_set_default_couples_value {α : Type} (f : Flag α) (dstr arg : Str) (x : α) :
    ((f.setDefault dstr).2 = none →
      ∃ d, f.parserFn dstr = some d ∧
        (f.setDefault dstr).1.default = d ∧
        (f.setDefault dstr).1.value = (if f.using_default_value then d else f.value) ∧
        (f.setDefault dstr).1.using_default_value = f.using_default_value ∧
        (f.setDefault dstr).1.present = f.present ∧
        (f.setDefault dstr).1.validators = f.validators) ∧
    (∀ e, (f.setDefault dstr).2 = some e → (f.setDefault dstr).1 = f) ∧
    (f.parseArg arg).1.default = f.default ∧
    (f.setValue x).1.default = f.default := by
  refine ⟨?_, ?_, ?_, ?_⟩
  · intro hn
    cases hp : f.parserFn dstr with
    | none => rw [setDefault_of_parser_none hp] at hn; simp at hn
    | some d =>
      rw [setDefault_of_parser_some hp] at hn ⊢
      refine ⟨d, rfl, ?_⟩
      by_cases hu : f.using_default_value
      · rw [if_pos hu, if_pos hu]
        exact ⟨rfl, rfl, hu.symm ▸ rfl, rfl, rfl⟩
      · rw [if_neg hu, if_neg hu]
        exact ⟨rfl, rfl, rfl, rfl, rfl⟩
  · intro e he
    cases hp : f.parserFn dstr with
    | none => rw [setDefault_of_parser_none hp]
    | some d =>
      rw [setDefault_of_parser_some hp] at he
      split at he <;> simp at he
  · cases hp : f.parserFn arg with
    | none => rw [parseArg_of_parser_none hp]
    | some v =>
      rw [parseArg_of_parser_some hp]
      split <;> rfl
  · unfold Flag.setValue
    split <;> rfl

theorem flag_set_default_couples_value_witness :
    (intFlagOne.setDefault ['7']).1.value = 7 ∧
    ({ intFlagOne with using_default_value := false }.setDefault ['7']).1.value = 1 := by
  have h1 := flag_set_default_couples_value intFlagOne ['7'] ['7'] 0
  have h2 := flag_set_default_couples_value
    { intFlagOne with using_default_value := false } ['7'] ['7'] 0
  obtain ⟨d, hd, -, hval, -⟩ := h1.1 rfl
  obtain ⟨d2, hd2, -, hval2, -⟩ := h2.1 rfl
  constructor
  · rw [hval, if_pos (show intFlagOne.using_default_value = true from rfl)]
    exact (Option.some_inj.mp hd).symm
  · rw [hval2]
    have hfalse : ({ intFlagOne with using_default_value := false } : Flag Int).using_default_value
        = false := rfl
    rw [hfalse, if_neg Bool.false_ne_true]
    rfl

theorem lookupFlag_congr {fv1 fv2 : FlagValues} (h : fv1.flags = fv2.flags) (n : String) :
    lookupFlag fv1 n = lookupFlag fv2 n := by
  unfold lookupFlag
  rw [h]

theorem flagNames_congr {fv1 fv2 : FlagValues} (h : fv1.flags = fv2.flags) :
    flagNames fv1 = flagNames fv2 := by
  unfold flagNames
  rw [h]

theorem applyOverrides_unknown (ovs : List Override) : ∀ fv : FlagValues,
    (∃ ov ∈ ovs, ov.name ∉ flagNames fv) → ((applyOverrides fv ovs).2).isSome = true := by
  induction ovs with
  | nil =>
    intro fv h
    rcases h with ⟨ov, hmem, -⟩
    simp at hmem
  | cons o rest ih =>
    intro fv h
    simp only [applyOverrides]
    cases hl : lookupFlag fv o.name with
    | none => rfl
    | some f =>
      rcases h with ⟨ov, hmem, hnot⟩
      rcases List.mem_cons.mp hmem with rfl | hmem2
      · rw [lookupFlag_eq_none_iff.mpr hnot] at hl
        exact absurd hl (by simp)
      · exact ih (setFlagValue fv o.name o.val)
          ⟨ov, hmem2, by rwa [flagNames_setFlagValue]⟩

theorem flagsaverEnter_isSome {fv : FlagValues} {ovs : List Override}
    (h : ((applyOverrides fv ovs).2).isSome = true) :
    ((flagsaverEnter fv ovs).2).isSome = true := by
  simp only [flagsaverEnter]
  cases ha : (applyOverrides fv ovs).2 with
  | none => rw [ha] at h; simp at h
  | some e => rfl

/-- C1: a flagsaver scope whose overrides were admitted and validated
restores every flag of the registry — value, default, `present`,
`using_default_value` and validators, i.e. the whole per-flag state —
to its pre-scope state on exit, whatever mutations the body performed,
and still propagates the body's exception. -/
theorem flagsaver_scope_restores_all_flags
    (fv : FlagValues) (ovs : List Override)
    (body : FlagValues → FlagValues × Option String)
    (hnd : (flagNames fv).Nodup)
    (hbody : ∀ x, flagNames (body x).1 = flagNames x)
    (hdup : (ovs.map Override.name).Nodup)
    (henter : (flagsaverEnter fv ovs).2 = none) :
    (flagsaverRun fv ovs body).1.flags = fv.flags ∧
    (flagsaverRun fv ovs body).2 =
      ((body (flagsaverEnter fv ovs).1).2).map RunError.bodyError := by
  refine ⟨flagsaverRun_flags hnd hbody, ?_⟩
  simp only [flagsaverRun, if_pos hdup]
  rw [henter]

theorem flagsaver_scope_restores_all_flags_witness :
    (flagNames fvAB).Nodup ∧
    (∀ x, flagNames (mutateBody x).1 = flagNames x) ∧
    (flagsaverEnter fvAB []).2 = none ∧
    (flagsaverRun fvAB [] mutateBody).1.flags = fvAB.flags ∧
    (flagsaverRun fvAB [] mutateBody).2 = some (.bodyError ("boom")) := by
  have h := flagsaver_scope_restores_all_flags fvAB [] mutateBody
    (by decide) mutateBody_names (by decide) rfl
  exact ⟨by decide, mutateBody_names, rfl, h.1, h.2.trans rfl⟩

/-- C4: when applying a flagsaver call's overrides fails partway —
a validator rejects the batch, or an override names an unknown flag —
nothing already applied in that call remains applied: every flag of the
registry reads its pre-call state afterwards, no flag name was created,
and the error propagates wrapped in the scope's result. -/
theorem flagsaver_failed_overrides_rolled_back
    (fv : FlagValues) (ovs : List Override)
    (body : FlagValues → FlagValues × Option String)
    (hnd : (flagNames fv).Nodup)
    (hdup : (ovs.map Override.name).Nodup) :
    (∀ e, (flagsaverEnter fv ovs).2 = some e →
      (flagsaverRun fv ovs body).1.flags = fv.flags ∧
      (∀ n, lookupFlag (flagsaverRun fv ovs body).1 n = lookupFlag fv n) ∧
      flagNames (flagsaverRun fv ovs body).1 = flagNames fv ∧
      (flagsaverRun fv ovs body).2 = some (.flagError e)) ∧
    ((∃ ov ∈ ovs, ov.name ∉ flagNames fv) →
      ((flagsaverEnter fv ovs).2).isSome = true) := by
  constructor
  · intro e he
    have hrun : flagsaverRun fv ovs body =
        (restoreSnapshot fv (flagsaverEnter fv ovs).1, some (.flagError e)) := by
      simp only [flagsaverRun, if_pos hdup]
      rw [he]
    have hflags : (flagsaverRun fv ovs body).1.flags = fv.flags := by
      rw [hrun]
      exact restoreSnapshot_self (flagNames_enter fv ovs) hnd
    exact ⟨hflags, fun n => lookupFlag_congr hflags n, flagNames_congr hflags, by rw [hrun]⟩
  · intro hex
    exact flagsaverEnter_isSome (applyOverrides_unknown ovs fv hex)

theorem flagsaver_failed_overrides_rolled_back_witness :
    (flagNames fvAB).Nodup ∧
    (flagsaverEnter fvAB [⟨false, "A", "v"⟩, ⟨false, "unknown_flag", "v"⟩]).2 =
      some (.unrecognizedFlag ("unknown_flag")) ∧
    (flagsaverRun fvAB [⟨false, "A", "v"⟩, ⟨false, "unknown_flag", "v"⟩] idBody).1.flags =
      fvAB.flags ∧
    (flagsaverRun fvAB [⟨false, "A", "v"⟩, ⟨false, "unknown_flag", "v"⟩] idBody).2 =
      some (.flagError (.unrecognizedFlag ("unknown_flag"))) := by
  have h := (flagsaver_failed_overrides_rolled_back fvAB
    [⟨false, "A", "v"⟩, ⟨false, "unknown_flag", "v"⟩] idBody (by decide) (by decide)).1
    (.unrecognizedFlag ("unknown_flag")) rfl
  exact ⟨by decide, rfl, h.1, h.2.2.2⟩

/-- C8: a flagsaver call in which two overrides — two holder pairs, or a
holder pair and a keyword argument — target the same flag raises at call
time, before any flag is mutated: the registry is returned untouched
and the body never runs. -/
theorem flagsaver_duplicate_target_rejected
    (fv : FlagValues) (ovs : List Override)
    (body : FlagValues → FlagValues × Option String)
    (hdup : ¬(ovs.map Override.name).Nodup) :
    flagsaverRun fv ovs body = (fv, some .duplicateOverride) ∧
    flagsaverRun fvAB [⟨true, "A", "x"⟩, ⟨true, "A", "y"⟩] idBody =
      (fvAB, some .duplicateOverride) ∧
    flagsaverRun fvAB [⟨true, "A", "x"⟩, ⟨false, "A", "y"⟩] idBody =
      (fvAB, some .duplicateOverride) := by
  refine ⟨?_, rfl, rfl⟩
  simp only [flagsaverRun, if_neg hdup]

theorem flagsaver_duplicate_target_rejected_witness :
    ¬((([⟨true, "A", "x"⟩, ⟨true, "A", "y"⟩] : List Override).map Override.name).Nodup) ∧
    flagsaverRun fvAB [⟨true, "A", "x"⟩, ⟨true, "A", "y"⟩] idBody =
      (fvAB, some .duplicateOverride) :=
  ⟨by decide,
   (flagsaver_duplicate_target_rejected fvAB [⟨true, "A", "x"⟩, ⟨true, "A", "y"⟩] idBody
     (by decide)).1⟩

theorem validateBatch_error_contract (fv : FlagValues) (touched : List String)
    (e : FlagError) (h : validateBatch fv touched = some e) :
    ∃ msg, e = .illegalFlagValue msg ∧ "Flag validation failed".data <:+: msg.data := by
  unfold validateBatch at h
  split at h
  · next n _ =>
    refine ⟨("flag --" ++ n ++ ": ") ++ "Flag validation failed",
      (Option.some_inj.mp h).symm, ("flag --" ++ n ++ ": ").data, [], ?_⟩
    simp [String.data_append]
  · split at h
    · next sv _ =>
      refine ⟨"Flag validation failed" ++ (": " ++ String.intercalate (", ") sv.1),
        (Option.some_inj.mp h).symm, [], (": " ++ String.intercalate (", ") sv.1).data, ?_⟩
      simp [String.data_append]
    · exact absurd h (by simp)

theorem validateBatch_isSome_of_multi {fv : FlagValues} {touched : List String}
    {sv : List String × (List (String × Option String) → Bool)}
    (hsv : sv ∈ fv.multiValidators)
    (htouch : sv.1.any (fun n => touched.contains n) = true)
    (hfail : sv.2 (scopeValues fv sv.1) = false) :
    (validateBatch fv touched).isSome = true := by
  unfold validateBatch
  split
  · rfl
  · have hex : ∃ x ∈ fv.multiValidators,
        (fun sv => sv.1.any (fun n => touched.contains n) && !(sv.2 (scopeValues fv sv.1))) x
          = true := ⟨sv, hsv, by dsimp only; rw [htouch, hfail]; rfl⟩
    have h2 := List.find?_isSome.mpr hex
    cases hf : fv.multiValidators.find? (fun sv =>
        sv.1.any (fun n => touched.contains n) && !(sv.2 (scopeValues fv sv.1))) with
    | none => rw [hf] at h2; simp at h2
    | some sv2 => rfl

/-- C5: when a change batch touches any flag in a multi-flag validator's
scope and the predicate rejects, the operation raises
`IllegalFlagValueError` whose message contains the literal substring
"Flag validation failed" (any batch-validation error has that shape);
concretely, with a validator requiring `A == B`, overriding both to the
same value in one flagsaver call succeeds — both read the new value
inside the scope — while overriding only `A` raises that error and
leaves both flags at their pre-call state. -/
theorem multiflag_validator_failure_contract
    (fv : FlagValues) (touched : List String)
    (sv : List String × (List (String × Option String) → Bool))
    (hsv : sv ∈ fv.multiValidators)
    (htouch : sv.1.any (fun n => touched.contains n) = true)
    (hfail : sv.2 (scopeValues fv sv.1) = false) :
    (validateBatch fv touched).isSome = true ∧
    (∀ e, validateBatch fv touched = some e →
      ∃ msg, e = .illegalFlagValue msg ∧ "Flag validation failed".data <:+: msg.data) ∧
    (flagsaverEnter fvAB [⟨false, "A", "v"⟩, ⟨false, "B", "v"⟩]).2 = none ∧
    ((lookupFlag (flagsaverEnter fvAB [⟨false, "A", "v"⟩, ⟨false, "B", "v"⟩]).1 ("A")).map
      RFlag.value = some (some ("v"))) ∧
    ((lookupFlag (flagsaverEnter fvAB [⟨false, "A", "v"⟩, ⟨false, "B", "v"⟩]).1 ("B")).map
      RFlag.value = some (some ("v"))) ∧
    (flagsaverRun fvAB [⟨false, "A", "v"⟩, ⟨false, "B", "v"⟩] idBody).2 = none ∧
    (flagsaverRun fvAB [⟨false, "A", "v"⟩, ⟨false, "B", "v"⟩] idBody).1.flags = fvAB.flags ∧
    (∃ msg, (flagsaverRun fvAB [⟨false, "A", "v"⟩] idBody).2 =
        some (.flagError (.illegalFlagValue msg)) ∧
      "Flag validation failed".data <:+: msg.data) ∧
    (flagsaverRun fvAB [⟨false, "A", "v"⟩] idBody).1.flags = fvAB.flags := by
  refine ⟨validateBatch_isSome_of_multi hsv htouch hfail,
    fun e he => validateBatch_error_contract fv touched e he,
    rfl, rfl, rfl, rfl, rfl, ⟨"Flag validation failed" ++ (": " ++ "A, B"), rfl, by decide⟩,
    rfl⟩

theorem multiflag_validator_failure_contract_witness :
    ((["A", "B"], pairEqual) ∈ (setFlagValue fvAB ("A") ("v")).multiValidators) ∧
    ((["A", "B"] : List String).any (fun n => (["A"] : List String).contains n) = true) ∧
    (pairEqual (scopeValues (setFlagValue fvAB ("A") ("v")) ["A", "B"]) = false) ∧
    (validateBatch (setFlagValue fvAB ("A") ("v")) ["A"]).isSome = true := by
  have h := multiflag_validator_failure_contract (setFlagValue fvAB ("A") ("v")) ["A"]
    (["A", "B"], pairEqual) (List.mem_singleton.mpr rfl) rfl rfl
  exact ⟨List.mem_singleton.mpr rfl, rfl, rfl, h.1⟩

/-- C9: emitting a log record created by `ABSLLogger.log` at FATAL
severity or above through `PythonHandler.emit` reaches `os.abort` in
every branch — before flag parsing, with `--logtostderr`, and in the
default stream path — regardless of the logging flags: the emit path
never returns control normally for such records, and no catchable
exception is involved (the model has no raising path in `emit`). -/
theorem fatal_record_emit_aborts (s : EmitState) (level : Int) (h : FATAL ≤ level) :
    (emit s (abslLoggerRecord level)).2.aborted = true := by
  have hd : is_absl_fatal_record (abslLoggerRecord level) = true := by
    simp only [is_absl_fatal_record, abslLoggerRecord, decide_eq_true_eq]
    simpa using h
  simp only [emit]
  split
  · exact hd
  · split
    · exact hd
    · exact hd

theorem fatal_record_emit_aborts_witness :
    FATAL ≤ (50 : Int) ∧
    (emit ⟨true, false, false, 20, false, false⟩ (abslLoggerRecord 50)).2.aborted = true :=
  ⟨by decide, fatal_record_emit_aborts ⟨true, false, false, 20, false, false⟩ 50 (by decide)⟩

theorem emit_preparse {s : EmitState} (r : LogRecord) (hp : s.flags_parsed = false) :
    emit s r = ({ s with warn_preinit_stderr := false },
      { stderr := (if s.warn_preinit_stderr then [.preinitWarning] else []) ++ [.record r],
        stream := [], aborted := is_absl_fatal_record r }) := by
  simp [emit, hp]

theorem warning_count_pre (b : Bool) (r : LogRecord) :
    ((if b then [StderrItem.preinitWarning] else []) ++
      [StderrItem.record r]).count .preinitWarning = if b then 1 else 0 := by
  cases b <;> rfl

theorem emitSeq_warning_count (rs : List LogRecord) : ∀ s : EmitState,
    s.flags_parsed = false →
    ((emitSeq s rs).2.count .preinitWarning ≤ 1 ∧
      (s.warn_preinit_stderr = false → (emitSeq s rs).2.count .preinitWarning = 0)) := by
  induction rs with
  | nil =>
    intro s hp
    exact ⟨by simp [emitSeq], fun _ => by simp [emitSeq]⟩
  | cons r rest ih =>
    intro s hp
    simp only [emitSeq]
    rw [emit_preparse r hp]
    dsimp only
    have hout := warning_count_pre s.warn_preinit_stderr r
    split
    · rw [hout]
      refine ⟨?_, fun hw => ?_⟩
      · split <;> omega
      · simp [hw]
    · have hrest := ih { s with warn_preinit_stderr := false } hp
      rw [List.count_append, hout, hrest.2 rfl]
      refine ⟨?_, fun hw => ?_⟩
      · split <;> omega
      · rw [hw, if_neg Bool.false_ne_true]

theorem emitSeq_records_pre (rs : List LogRecord) : ∀ s : EmitState,
    s.flags_parsed = false →
    (∀ r ∈ rs, is_absl_fatal_record r = false) →
    stderrRecords (emitSeq s rs).2 = rs := by
  induction rs with
  | nil => intro s hp _; rfl
  | cons r rest ih =>
    intro s hp hnf
    simp only [emitSeq]
    rw [emit_preparse r hp]
    dsimp only
    rw [hnf r (List.mem_cons_self r rest), if_neg Bool.false_ne_true]
    have hrest := ih { s with warn_preinit_stderr := false } hp
      (fun x hx => hnf x (List.mem_cons_of_mem r hx))
    unfold stderrRecords at hrest ⊢
    rw [List.filterMap_append, List.filterMap_append, hrest]
    cases hw : s.warn_preinit_stderr <;> rfl

/-- C10: while the registry's `is_parsed` latch is still false, every
record handled by `PythonHandler.emit` is written to stderr, and the
pre-init warning line is written at most once per process across all
such emits — a one-shot global latch — and never again once the latch
is cleared. -/
theorem preparse_emit_warns_once (s : EmitState) (rs : List LogRecord)
    (hp : s.flags_parsed = false) :
    (emitSeq s rs).2.count .preinitWarning ≤ 1 ∧
    (s.warn_preinit_stderr = false → (emitSeq s rs).2.count .preinitWarning = 0) ∧
    ((∀ r ∈ rs, is_absl_fatal_record r = false) → stderrRecords (emitSeq s rs).2 = rs) := by
  have h1 := emitSeq_warning_count rs s hp
  exact ⟨h1.1, h1.2, fun hnf => emitSeq_records_pre rs s hp hnf⟩

theorem preparse_emit_warns_once_witness :
    ((⟨false, false, false, 20, false, true⟩ : EmitState).flags_parsed = false) ∧
    (emitSeq ⟨false, false, false, 20, false, true⟩
      [⟨10, false⟩, ⟨30, false⟩]).2.count .preinitWarning ≤ 1 ∧
    stderrRecords (emitSeq ⟨false, false, false, 20, false, true⟩
      [⟨10, false⟩, ⟨30, false⟩]).2 = [⟨10, false⟩, ⟨30, false⟩] := by
  have h := preparse_emit_warns_once ⟨false, false, false, 20, false, true⟩
    [⟨10, false⟩, ⟨30, false⟩] rfl
  exact ⟨rfl, h.1, h.2.2 (by decide)⟩

end AbslSpec
